import Mathlib

/-!
Verification of the `vector_tiles` repository against its specification.

The development shallowly embeds the repository's core (src/clip.rs,
src/shapefile.rs, the `create_tile` step of src/main.rs) in Lean.

Modelling conventions:
* Rust `f64` coordinate arithmetic is modelled over `ℚ` (exact arithmetic);
  the claims under scrutiny are about the control flow and the affine
  interpolation of the clipping code, not about rounding.
* `geo::LineString<f64>` is a `List Coord`; `geo::Polygon<f64>` is an
  exterior ring plus a list of interior rings, exactly as in geo 0.12
  (fields `exterior` / `interiors`).
* The call `polygon.contains(&rect_polygon)` in clip.rs goes to the external
  `geo` library; the embedding keeps it as an explicit functional parameter
  `cf` of the clipper, so theorems quantify over (or instantiate) it.
* The byte-level shapefile parser (nom combinators) is embedded over
  `List ℕ` byte buffers; `le_f64` fields are kept as their raw 64-bit
  little-endian patterns (a `ℕ`), since no claim inspects float values of
  parsed buffers.  Parse failure (nom `Error` or `Incomplete`, which
  `complete!` conflates) is `none`.
-/

/-- A planar coordinate, as `geo::Coordinate<f64>` (modelled over `ℚ`). -/
structure Coord where
  x : ℚ
  y : ℚ
deriving DecidableEq, Repr

/-- The axis selector of clip.rs (`struct X` / `struct Y`, trait `Axis`). -/
inductive Ax where
  | X : Ax
  | Y : Ax
deriving DecidableEq, Repr

/-- The `GetCoord::coord::<T>()` projection of clip.rs. -/
def Coord.coord (c : Coord) : Ax → ℚ
  | Ax.X => c.x
  | Ax.Y => c.y

/-- A `geo::Rect<f64>`: `min` and `max` corner. -/
structure Rect where
  min : Coord
  max : Coord
deriving DecidableEq, Repr

/-- A `geo::Polygon<f64>`: exterior ring plus interior rings. -/
structure Polygon where
  exterior : List Coord
  interiors : List (List Coord)
deriving DecidableEq, Repr

/-- clip.rs `interpolate`: the affine blend `a + t·(b − a)`, componentwise. -/
def interpolate (a b : Coord) (t : ℚ) : Coord :=
  ⟨a.x + t * (b.x - a.x), a.y + t * (b.y - a.y)⟩

/-- clip.rs `intersect::<U, T>`: interpolate at `t = (k − a_T)/(b_T − a_T)`. -/
def intersect (A : Ax) (a b : Coord) (k : ℚ) : Coord :=
  interpolate a b ((k - a.coord A) / (b.coord A - a.coord A))

/-- The body of the `windows(2)` loop of clip.rs `clip_line` for a single
edge `(p, q)`: the enter/inside block followed by the two exit checks. -/
def clipSeg (A : Ax) (k1 k2 : ℚ) (pq : Coord × Coord) : List Coord :=
  (if pq.1.coord A < k1 then
     (if k1 < pq.2.coord A then [intersect A pq.1 pq.2 k1] else [])
   else if k2 < pq.1.coord A then
     (if pq.2.coord A < k2 then [intersect A pq.1 pq.2 k2] else [])
   else [pq.1])
  ++ (if pq.2.coord A < k1 ∧ k1 ≤ pq.1.coord A then
        [intersect A pq.1 pq.2 k1] else [])
  ++ (if k2 < pq.2.coord A ∧ pq.1.coord A ≤ k2 then
        [intersect A pq.1 pq.2 k2] else [])

/-- The consecutive-edge pairs of a ring, as `line_strip.0.windows(2)`. -/
def edges (ls : List Coord) : List (Coord × Coord) :=
  ls.zip ls.tail

/-- The ring-closing step at the end of clip.rs `clip_line`: if first and
last point differ, append the first point. -/
def closeRing (r : List Coord) : List Coord :=
  if r.head? = r.getLast? then r
  else
    match r.head? with
    | some f => r ++ [f]
    | none => r

/-- The `windows(2)` edge walk of clip.rs `clip_line` (the `result`
vector right after the loop). -/
def clipCore (A : Ax) (ls : List Coord) (k1 k2 : ℚ) : List Coord :=
  (edges ls).flatMap (clipSeg A k1 k2)

/-- The general path of clip.rs `clip_line`: the edge walk, then the
boundary-inclusive append of the ring's last point, then the closing step. -/
def clipFull (A : Ax) (ls : List Coord) (k1 k2 : ℚ) : List Coord :=
  closeRing
    (match ls.getLast? with
     | some l =>
         if k1 ≤ l.coord A ∧ l.coord A ≤ k2 then clipCore A ls k1 k2 ++ [l]
         else clipCore A ls k1 k2
     | none => clipCore A ls k1 k2)

/-- clip.rs `clip_line::<T, A>`: clip one ring against `[k1, k2]` on axis
`A`, with the trivial-reject and trivial-accept fast paths and the general
edge walk.  (The Rust code `assert!(k1 <= k2)`; theorems carry `k1 ≤ k2`
as hypothesis.) -/
def clipLine (A : Ax) (ls : List Coord) (k1 k2 : ℚ) : List Coord :=
  if ¬ ∃ c ∈ ls, c.coord A < k2 ∧ k1 < c.coord A then []
  else if ∀ c ∈ ls, c.coord A < k2 ∧ k1 < c.coord A then ls
  else clipFull A ls k1 k2

/-- The exterior ring of `geo::Polygon::from(rect)` (geo 0.12): the four
corners counter-clockwise from `min`, closed. -/
def rectRing (r : Rect) : List Coord :=
  [⟨r.min.x, r.min.y⟩, ⟨r.max.x, r.min.y⟩, ⟨r.max.x, r.max.y⟩,
   ⟨r.min.x, r.max.y⟩, ⟨r.min.x, r.min.y⟩]

/-- `geo::Polygon::from(rect)`: the rectangle as a holeless polygon. -/
def rectPolygon (r : Rect) : Polygon :=
  ⟨rectRing r, []⟩

/-- The two-pass clip of a single ring in clip.rs `clip_polygon`: X-pass
against `[rect.min.x, rect.max.x]`, then Y-pass against
`[rect.min.y, rect.max.y]`. -/
def twoPassClip (l : List Coord) (r : Rect) : List Coord :=
  clipLine Ax.Y (clipLine Ax.X l r.min.x r.max.x) r.min.y r.max.y

/-- clip.rs `clip_polygon`: X-pass then Y-pass on the exterior, the
containment fallback (the external `polygon.contains(&rect_polygon)` call is
the parameter `cf`), and the same two passes on every interior ring. -/
def clipPolygon (cf : Polygon → Polygon → Bool) (poly : Polygon) (r : Rect) :
    Polygon :=
  ⟨if twoPassClip poly.exterior r = [] then
     (if cf poly (rectPolygon r) then rectRing r
      else twoPassClip poly.exterior r)
   else twoPassClip poly.exterior r,
   poly.interiors.map fun l => twoPassClip l r⟩

/-- main.rs `create_tile`: clip every polygon of the multi-polygon against
the tile rectangle and keep those whose exterior has more than 3 points. -/
def createTile (cf : Polygon → Polygon → Bool) (mp : List Polygon) (r : Rect) :
    List Polygon :=
  (mp.map fun p => clipPolygon cf p r).filter fun p => 3 < p.exterior.length

/-- All coordinates of a polygon: exterior ring and every interior ring. -/
def polyCoords (p : Polygon) : List Coord :=
  p.exterior ++ p.interiors.flatten

/-! ### Geometric lemmas about the axis clipper -/

lemma coord_interpolate (a b : Coord) (t : ℚ) (A : Ax) :
    (interpolate a b t).coord A = a.coord A + t * (b.coord A - a.coord A) := by
  cases A <;> simp [interpolate, Coord.coord]

lemma interpolate_zero (a b : Coord) : interpolate a b 0 = a := by
  cases a; simp [interpolate]

/-- Every point produced by `clipLine` is an affine combination (with
parameter in `[0, 1]`) of two points of the input ring.  Input points
themselves are covered by the degenerate combination `t = 0`. -/
def InHull (ls : List Coord) (c : Coord) : Prop :=
  ∃ p ∈ ls, ∃ q ∈ ls, ∃ t : ℚ, 0 ≤ t ∧ t ≤ 1 ∧ c = interpolate p q t

lemma inHull_of_mem {ls : List Coord} {c : Coord} (hc : c ∈ ls) :
    InHull ls c :=
  ⟨c, hc, c, hc, 0, le_refl _, by norm_num, (interpolate_zero _ _).symm⟩

/-- What the clipper guarantees of each output point: it is an affine
combination of input points, and its clip-axis coordinate lies in
`[k1, k2]`. -/
def GoodPoint (A : Ax) (k1 k2 : ℚ) (ls : List Coord) (c : Coord) : Prop :=
  InHull ls c ∧ k1 ≤ c.coord A ∧ c.coord A ≤ k2

lemma coord_intersect {A : Ax} {a b : Coord} (k : ℚ)
    (h : a.coord A ≠ b.coord A) : (intersect A a b k).coord A = k := by
  have h' : b.coord A - a.coord A ≠ 0 := sub_ne_zero.mpr (Ne.symm h)
  rw [intersect, coord_interpolate, div_mul_cancel₀ _ h']
  ring

lemma unit_div (u v : ℚ) (h0 : 0 ≤ u) (huv : u ≤ v) (hv : 0 < v) :
    0 ≤ u / v ∧ u / v ≤ 1 :=
  ⟨div_nonneg h0 (le_of_lt hv), (div_le_one hv).mpr huv⟩

lemma neg_quot (x y : ℚ) : x / y = (-x) / (-y) := by
  rw [neg_div_neg_eq]

lemma intersect_goodHull {A : Ax} {p q : Coord} {ls : List Coord}
    (hp : p ∈ ls) (hq : q ∈ ls) (k : ℚ)
    (ht : 0 ≤ (k - p.coord A) / (q.coord A - p.coord A) ∧
          (k - p.coord A) / (q.coord A - p.coord A) ≤ 1) :
    InHull ls (intersect A p q k) :=
  ⟨p, hp, q, hq, _, ht.1, ht.2, rfl⟩

lemma clipSeg_good {A : Ax} {k1 k2 : ℚ} {p q : Coord} {ls : List Coord}
    (hk : k1 ≤ k2) (hp : p ∈ ls) (hq : q ∈ ls) :
    ∀ c ∈ clipSeg A k1 k2 (p, q), GoodPoint A k1 k2 ls c := by
  intro c hc
  unfold clipSeg at hc
  simp only at hc
  rcases List.mem_append.mp hc with h12 | h3
  · rcases List.mem_append.mp h12 with h1 | h2
    · -- enter block / inside point
      split_ifs at h1 with ha hb ha' hb'
      · -- a < k1, k1 < b : enter from the left, intersect at k1
        simp only [List.mem_singleton] at h1
        subst h1
        have hne : p.coord A ≠ q.coord A := by intro h; rw [h] at ha; linarith
        have ht := unit_div (k1 - p.coord A) (q.coord A - p.coord A)
          (by linarith) (by linarith) (by linarith)
        exact ⟨intersect_goodHull hp hq k1 ht, by
          rw [coord_intersect k1 hne]; exact ⟨le_refl _, hk⟩⟩
      · simp at h1
      · -- k2 < a, b < k2 : enter from the right, intersect at k2
        simp only [List.mem_singleton] at h1
        subst h1
        have hne : p.coord A ≠ q.coord A := by intro h; rw [h] at ha'; linarith
        have hden : q.coord A - p.coord A ≠ 0 :=
          sub_ne_zero.mpr (Ne.symm hne)
        have e : (k2 - p.coord A) / (q.coord A - p.coord A) =
            (p.coord A - k2) / (p.coord A - q.coord A) := by
          rw [neg_quot]; ring_nf
        have ht := unit_div (p.coord A - k2) (p.coord A - q.coord A)
          (by linarith) (by linarith) (by linarith)
        exact ⟨intersect_goodHull hp hq k2 (by rw [e]; exact ht), by
          rw [coord_intersect k2 hne]; exact ⟨hk, le_refl _⟩⟩
      · simp at h1
      · -- k1 ≤ a ≤ k2 : point inside, emit p itself
        simp only [List.mem_singleton] at h1
        subst h1
        exact ⟨inHull_of_mem hp, by push_neg at ha ha'; exact ⟨ha, ha'⟩⟩
    · -- exit on the left: b < k1 ≤ a, intersect at k1
      split_ifs at h2 with hcond
      · simp only [List.mem_singleton] at h2
        subst h2
        obtain ⟨hb, ha⟩ := hcond
        have hne : p.coord A ≠ q.coord A := by intro h; rw [h] at ha; linarith
        have hden : q.coord A - p.coord A ≠ 0 :=
          sub_ne_zero.mpr (Ne.symm hne)
        have e : (k1 - p.coord A) / (q.coord A - p.coord A) =
            (p.coord A - k1) / (p.coord A - q.coord A) := by
          rw [neg_quot]; ring_nf
        have ht := unit_div (p.coord A - k1) (p.coord A - q.coord A)
          (by linarith) (by linarith) (by linarith)
        exact ⟨intersect_goodHull hp hq k1 (by rw [e]; exact ht), by
          rw [coord_intersect k1 hne]; exact ⟨le_refl _, hk⟩⟩
      · simp at h2
  · -- exit on the right: a ≤ k2 < b, intersect at k2
    split_ifs at h3 with hcond
    · simp only [List.mem_singleton] at h3
      subst h3
      obtain ⟨hb, ha⟩ := hcond
      have hne : p.coord A ≠ q.coord A := by intro h; rw [h] at ha; linarith
      have ht := unit_div (k2 - p.coord A) (q.coord A - p.coord A)
        (by linarith) (by linarith) (by linarith)
      exact ⟨intersect_goodHull hp hq k2 ht, by
        rw [coord_intersect k2 hne]; exact ⟨hk, le_refl _⟩⟩
    · simp at h3

lemma closeRing_subset {r : List Coord} {c : Coord} (hc : c ∈ closeRing r) :
    c ∈ r := by
  unfold closeRing at hc
  split_ifs at hc with h
  · exact hc
  · cases r with
    | nil => simp at hc
    | cons y ys =>
        simp only [List.head?_cons] at hc
        rcases List.mem_append.mp hc with h1 | h2
        · exact h1
        · simp only [List.mem_singleton] at h2
          subst h2
          exact List.mem_cons_self _ _

lemma mem_clipCore {A : Ax} {k1 k2 : ℚ} {ls : List Coord} {c : Coord}
    (hk : k1 ≤ k2) (hc : c ∈ clipCore A ls k1 k2) :
    GoodPoint A k1 k2 ls c := by
  unfold clipCore at hc
  obtain ⟨⟨p, q⟩, hpq, hcs⟩ := List.mem_flatMap.mp hc
  have hmem := List.of_mem_zip hpq
  exact clipSeg_good hk hmem.1 (List.mem_of_mem_tail hmem.2) c hcs

lemma clipFull_eq_none {A : Ax} {k1 k2 : ℚ} {ls : List Coord}
    (hl : ls.getLast? = none) :
    clipFull A ls k1 k2 = closeRing (clipCore A ls k1 k2) := by
  unfold clipFull
  rw [hl]

lemma clipFull_eq_some {A : Ax} {k1 k2 : ℚ} {ls : List Coord} {l : Coord}
    (hl : ls.getLast? = some l) :
    clipFull A ls k1 k2 =
      closeRing (if k1 ≤ l.coord A ∧ l.coord A ≤ k2
                 then clipCore A ls k1 k2 ++ [l]
                 else clipCore A ls k1 k2) := by
  unfold clipFull
  rw [hl]

lemma mem_clipFull {A : Ax} {k1 k2 : ℚ} {ls : List Coord} {c : Coord}
    (hk : k1 ≤ k2) (hc : c ∈ clipFull A ls k1 k2) :
    GoodPoint A k1 k2 ls c := by
  cases hl : ls.getLast? with
  | none =>
      rw [clipFull_eq_none hl] at hc
      exact mem_clipCore hk (closeRing_subset hc)
  | some l =>
      rw [clipFull_eq_some hl] at hc
      have hc' := closeRing_subset hc
      split_ifs at hc' with hb
      · rcases List.mem_append.mp hc' with h1 | h2
        · exact mem_clipCore hk h1
        · simp only [List.mem_singleton] at h2
          subst h2
          exact ⟨inHull_of_mem (List.mem_of_mem_getLast? hl), hb⟩
      · exact mem_clipCore hk hc'

/-- Main membership lemma for the axis clipper: every output point is an
affine combination of input points and its clip-axis coordinate is in
`[k1, k2]`. -/
lemma mem_clipLine {A : Ax} {k1 k2 : ℚ} {ls : List Coord} {c : Coord}
    (hk : k1 ≤ k2) (hc : c ∈ clipLine A ls k1 k2) :
    GoodPoint A k1 k2 ls c := by
  unfold clipLine at hc
  by_cases h1 : ∃ d ∈ ls, d.coord A < k2 ∧ k1 < d.coord A
  · rw [if_neg (not_not_intro h1)] at hc
    by_cases h2 : ∀ d ∈ ls, d.coord A < k2 ∧ k1 < d.coord A
    · rw [if_pos h2] at hc
      exact ⟨inHull_of_mem hc, le_of_lt (h2 c hc).2, le_of_lt (h2 c hc).1⟩
    · rw [if_neg h2] at hc
      exact mem_clipFull hk hc
  · rw [if_pos h1] at hc
    exact absurd hc (List.not_mem_nil c)

lemma convex_mem {lo hi a b t : ℚ} (ha1 : lo ≤ a) (ha2 : a ≤ hi)
    (hb1 : lo ≤ b) (hb2 : b ≤ hi) (ht0 : 0 ≤ t) (ht1 : t ≤ 1) :
    lo ≤ a + t * (b - a) ∧ a + t * (b - a) ≤ hi := by
  constructor <;> nlinarith

/-- The clip-axis coordinates of a `clipLine` output lie within `[k1, k2]`. -/
lemma clipLine_coord_bounds {A : Ax} {k1 k2 : ℚ} {ls : List Coord} {c : Coord}
    (hk : k1 ≤ k2) (hc : c ∈ clipLine A ls k1 k2) :
    k1 ≤ c.coord A ∧ c.coord A ≤ k2 :=
  (mem_clipLine hk hc).2

/-- A coordinate bound on any fixed axis that holds for every input point is
preserved by `clipLine` (the output is in the per-axis convex hull). -/
lemma clipLine_axis_preserved {A B : Ax} {k1 k2 lo hi : ℚ} {ls : List Coord}
    {c : Coord} (hk : k1 ≤ k2)
    (hB : ∀ d ∈ ls, lo ≤ d.coord B ∧ d.coord B ≤ hi)
    (hc : c ∈ clipLine A ls k1 k2) :
    lo ≤ c.coord B ∧ c.coord B ≤ hi := by
  obtain ⟨⟨p, hp, q, hq, t, ht0, ht1, hct⟩, _⟩ := mem_clipLine hk hc
  subst hct
  rw [coord_interpolate]
  exact convex_mem (hB p hp).1 (hB p hp).2 (hB q hq).1 (hB q hq).2 ht0 ht1

lemma closeRing_nil : closeRing [] = [] := rfl

lemma closeRing_closed {r : List Coord} (hr : r ≠ []) :
    (closeRing r).head? = (closeRing r).getLast? := by
  unfold closeRing
  split_ifs with h
  · exact h
  · cases r with
    | nil => exact absurd rfl hr
    | cons y ys =>
        show ((y :: ys) ++ [y]).head? = ((y :: ys) ++ [y]).getLast?
        rw [List.getLast?_concat]
        rfl

lemma clipFull_closed {A : Ax} {k1 k2 : ℚ} {ls : List Coord}
    (h : clipFull A ls k1 k2 ≠ []) :
    (clipFull A ls k1 k2).head? = (clipFull A ls k1 k2).getLast? := by
  cases hl : ls.getLast? with
  | none =>
      rw [clipFull_eq_none hl] at h ⊢
      apply closeRing_closed
      intro hnil
      exact h (by rw [hnil, closeRing_nil])
  | some l =>
      rw [clipFull_eq_some hl] at h ⊢
      apply closeRing_closed
      intro hnil
      exact h (by rw [hnil, closeRing_nil])

/-- Claim C6: a ring whose vertices all lie strictly inside `(k1, k2)` on
the clip axis is returned by the axis clipper as the identical vertex
sequence (value-level identity; the Rust pass-through-by-reference is a
memory-representation matter outside the embedding). -/
theorem claim_C6_trivial_accept_id (A : Ax) (ls : List Coord) (k1 k2 : ℚ)
    (_hk : k1 ≤ k2) (hin : ∀ c ∈ ls, k1 < c.coord A ∧ c.coord A < k2) :
    clipLine A ls k1 k2 = ls := by
  cases ls with
  | nil => simp [clipLine]
  | cons y ys =>
      have hy := hin y (List.mem_cons_self _ _)
      have hex : ∃ c ∈ y :: ys, c.coord A < k2 ∧ k1 < c.coord A :=
        ⟨y, List.mem_cons_self _ _, hy.2, hy.1⟩
      have hall : ∀ c ∈ y :: ys, c.coord A < k2 ∧ k1 < c.coord A :=
        fun c hc => ⟨(hin c hc).2, (hin c hc).1⟩
      unfold clipLine
      rw [if_neg (not_not_intro hex), if_pos hall]

/-- Witness for C6 at a concrete ring strictly inside the bounds. -/
theorem claim_C6_witness :
    ((0 : ℚ) ≤ 10) ∧
    (∀ c ∈ [(⟨2, 5⟩ : Coord), ⟨3, 7⟩, ⟨2, 5⟩],
       (0 : ℚ) < c.coord Ax.X ∧ c.coord Ax.X < 10) ∧
    clipLine Ax.X [(⟨2, 5⟩ : Coord), ⟨3, 7⟩, ⟨2, 5⟩] 0 10 =
      [(⟨2, 5⟩ : Coord), ⟨3, 7⟩, ⟨2, 5⟩] :=
  ⟨by norm_num, by decide,
   claim_C6_trivial_accept_id Ax.X [⟨2, 5⟩, ⟨3, 7⟩, ⟨2, 5⟩] 0 10
     (by norm_num) (by decide)⟩

/-- Claim C7: a ring whose vertices all lie strictly outside the closed
interval `[k1, k2]` on the clip axis clips to the empty ring. -/
theorem claim_C7_trivial_reject_empty (A : Ax) (ls : List Coord) (k1 k2 : ℚ)
    (_hk : k1 ≤ k2)
    (hout : ∀ c ∈ ls, c.coord A < k1 ∨ k2 < c.coord A) :
    clipLine A ls k1 k2 = [] := by
  unfold clipLine
  rw [if_pos]
  rintro ⟨c, hc, hlt, hgt⟩
  rcases hout c hc with h | h <;> linarith

/-- Witness for C7 at a concrete ring strictly outside the bounds. -/
theorem claim_C7_witness :
    ((0 : ℚ) ≤ 10) ∧
    (∀ c ∈ [(⟨-3, 5⟩ : Coord), ⟨12, 7⟩, ⟨-3, 5⟩],
       c.coord Ax.X < 0 ∨ (10 : ℚ) < c.coord Ax.X) ∧
    clipLine Ax.X [(⟨-3, 5⟩ : Coord), ⟨12, 7⟩, ⟨-3, 5⟩] 0 10 = [] :=
  ⟨by norm_num, by decide,
   claim_C7_trivial_reject_empty Ax.X [⟨-3, 5⟩, ⟨12, 7⟩, ⟨-3, 5⟩] 0 10
     (by norm_num) (by decide)⟩

/-- Claim C8: for a closed non-empty input ring, a non-empty axis-clip
result has its first vertex equal to its last vertex. -/
theorem claim_C8_closed_output (A : Ax) (ls : List Coord) (k1 k2 : ℚ)
    (_hk : k1 ≤ k2) (_hne : ls ≠ []) (hcl : ls.head? = ls.getLast?)
    (hres : clipLine A ls k1 k2 ≠ []) :
    (clipLine A ls k1 k2).head? = (clipLine A ls k1 k2).getLast? := by
  unfold clipLine at hres ⊢
  by_cases h1 : ∃ d ∈ ls, d.coord A < k2 ∧ k1 < d.coord A
  · rw [if_neg (not_not_intro h1)] at hres ⊢
    by_cases h2 : ∀ d ∈ ls, d.coord A < k2 ∧ k1 < d.coord A
    · rw [if_pos h2]
      exact hcl
    · rw [if_neg h2] at hres ⊢
      exact clipFull_closed hres
  · rw [if_pos h1] at hres
    exact absurd rfl hres

/-- Witness for C8: a closed square ring crossing the clip band has a
closed non-empty clip result. -/
theorem claim_C8_witness :
    ((-1 : ℚ) ≤ 5) ∧
    ([(⟨0, 0⟩ : Coord), ⟨10, 0⟩, ⟨10, 10⟩, ⟨0, 10⟩, ⟨0, 0⟩] ≠
      ([] : List Coord)) ∧
    ([(⟨0, 0⟩ : Coord), ⟨10, 0⟩, ⟨10, 10⟩, ⟨0, 10⟩, ⟨0, 0⟩].head? =
      [(⟨0, 0⟩ : Coord), ⟨10, 0⟩, ⟨10, 10⟩, ⟨0, 10⟩, ⟨0, 0⟩].getLast?) ∧
    clipLine Ax.X [(⟨0, 0⟩ : Coord), ⟨10, 0⟩, ⟨10, 10⟩, ⟨0, 10⟩, ⟨0, 0⟩]
        (-1) 5 ≠ [] ∧
    (clipLine Ax.X [(⟨0, 0⟩ : Coord), ⟨10, 0⟩, ⟨10, 10⟩, ⟨0, 10⟩, ⟨0, 0⟩]
        (-1) 5).head? =
      (clipLine Ax.X [(⟨0, 0⟩ : Coord), ⟨10, 0⟩, ⟨10, 10⟩, ⟨0, 10⟩, ⟨0, 0⟩]
        (-1) 5).getLast? :=
  ⟨by norm_num, by decide, by decide, by decide,
   claim_C8_closed_output Ax.X [⟨0, 0⟩, ⟨10, 0⟩, ⟨10, 10⟩, ⟨0, 10⟩, ⟨0, 0⟩]
     (-1) 5 (by norm_num) (by decide) (by decide) (by decide)⟩

lemma coord_X (c : Coord) : c.coord Ax.X = c.x := rfl

lemma coord_Y (c : Coord) : c.coord Ax.Y = c.y := rfl

/-- Both passes together: every point of a two-pass-clipped ring lies in
the rectangle (Y-bound from the Y-pass, X-bound preserved from the X-pass
through the convexity of interpolation). -/
lemma twoPassClip_in_rect {r : Rect} (hx : r.min.x ≤ r.max.x)
    (hy : r.min.y ≤ r.max.y) (l : List Coord) :
    ∀ c ∈ twoPassClip l r,
      r.min.x ≤ c.x ∧ c.x ≤ r.max.x ∧ r.min.y ≤ c.y ∧ c.y ≤ r.max.y := by
  intro c hc
  unfold twoPassClip at hc
  have hyb := clipLine_coord_bounds hy hc
  have hxb := clipLine_axis_preserved (B := Ax.X) hy
    (fun d hd => clipLine_coord_bounds hx hd) hc
  rw [coord_X] at hxb
  rw [coord_Y] at hyb
  exact ⟨hxb.1, hxb.2, hyb.1, hyb.2⟩

/-- Claim C1: for any containment oracle, polygon, and rectangle with
`min ≤ max` on both axes, no coordinate of the clipped polygon (exterior or
any interior ring) lies strictly outside the rectangle. -/
theorem claim_C1_clip_polygon_in_rect (cf : Polygon → Polygon → Bool)
    (poly : Polygon) (r : Rect)
    (hx : r.min.x ≤ r.max.x) (hy : r.min.y ≤ r.max.y) :
    ∀ c ∈ polyCoords (clipPolygon cf poly r),
      r.min.x ≤ c.x ∧ c.x ≤ r.max.x ∧ r.min.y ≤ c.y ∧ c.y ≤ r.max.y := by
  intro c hc
  unfold polyCoords clipPolygon at hc
  rcases List.mem_append.mp hc with hext | hint
  · dsimp only at hext
    split_ifs at hext with he hcf
    · simp only [rectRing, List.mem_cons, List.not_mem_nil, or_false] at hext
      rcases hext with rfl | rfl | rfl | rfl | rfl
      · exact ⟨le_refl _, hx, le_refl _, hy⟩
      · exact ⟨hx, le_refl _, le_refl _, hy⟩
      · exact ⟨hx, le_refl _, hy, le_refl _⟩
      · exact ⟨le_refl _, hx, hy, le_refl _⟩
      · exact ⟨le_refl _, hx, le_refl _, hy⟩
    · rw [he] at hext
      exact absurd hext (List.not_mem_nil c)
    · exact twoPassClip_in_rect hx hy _ c hext
  · dsimp only at hint
    obtain ⟨ring, hring, hcr⟩ := List.mem_flatten.mp hint
    obtain ⟨l0, _, rfl⟩ := List.mem_map.mp hring
    exact twoPassClip_in_rect hx hy l0 c hcr

/-! ### Concrete example inputs used by witnesses and counterexamples -/

/-- A constant containment oracle (stands for `geo`'s `contains` at call
sites where the fallback branch is not reached, or is forced on). -/
def cTrue : Polygon → Polygon → Bool := fun _ _ => true

/-- The constant-false containment oracle. -/
def cFalse : Polygon → Polygon → Bool := fun _ _ => false

/-- A closed 10×10 square exterior ring. -/
def extSq : List Coord := [⟨0, 0⟩, ⟨10, 0⟩, ⟨10, 10⟩, ⟨0, 10⟩, ⟨0, 0⟩]

/-- A closed unit-square hole near the far corner of `extSq`. -/
def holeSq : List Coord := [⟨8, 8⟩, ⟨9, 8⟩, ⟨9, 9⟩, ⟨8, 9⟩, ⟨8, 8⟩]

/-- Square with a small hole far from the clip rectangle `rect0`. -/
def poly0 : Polygon := ⟨extSq, [holeSq]⟩

/-- A one-polygon multi-polygon. -/
def mp0 : List Polygon := [poly0]

/-- A clip rectangle overlapping `extSq` but disjoint from `holeSq`. -/
def rect0 : Rect := ⟨⟨-1, -1⟩, ⟨5, 5⟩⟩

/-- A clip rectangle strictly inside `extSq` hitting no vertex band. -/
def rectIn : Rect := ⟨⟨4, 4⟩, ⟨6, 6⟩⟩

/-- Witness for C1 at a concrete polygon and rectangle. -/
theorem claim_C1_witness :
    rect0.min.x ≤ rect0.max.x ∧ rect0.min.y ≤ rect0.max.y ∧
    ∀ c ∈ polyCoords (clipPolygon cTrue poly0 rect0),
      rect0.min.x ≤ c.x ∧ c.x ≤ rect0.max.x ∧
      rect0.min.y ≤ c.y ∧ c.y ≤ rect0.max.y :=
  ⟨by decide, by decide,
   claim_C1_clip_polygon_in_rect cTrue poly0 rect0 (by decide) (by decide)⟩

/-- Claim C2: if the two-pass clip of the exterior is empty and the
containment test holds, the output exterior is the rectangle ring; with no
holes the output is exactly the single-ring rectangle polygon. -/
theorem claim_C2_containment_fallback (cf : Polygon → Polygon → Bool)
    (poly : Polygon) (r : Rect)
    (he : twoPassClip poly.exterior r = [])
    (hcf : cf poly (rectPolygon r) = true) :
    (clipPolygon cf poly r).exterior = rectRing r ∧
    (poly.interiors = [] → clipPolygon cf poly r = ⟨rectRing r, []⟩) := by
  refine ⟨?_, fun hi => ?_⟩
  · simp [clipPolygon, he, hcf]
  · simp [clipPolygon, he, hcf, hi]

/-- Witness for C2: the square `extSq` around the interior rectangle
`rectIn`; the exterior clip is empty by trivial reject on the X-pass. -/
theorem claim_C2_witness :
    twoPassClip (Polygon.mk extSq []).exterior rectIn = [] ∧
    cTrue (Polygon.mk extSq []) (rectPolygon rectIn) = true ∧
    ((clipPolygon cTrue (Polygon.mk extSq []) rectIn).exterior =
       rectRing rectIn ∧
     ((Polygon.mk extSq []).interiors = [] →
       clipPolygon cTrue (Polygon.mk extSq []) rectIn =
         ⟨rectRing rectIn, []⟩)) :=
  ⟨by decide, by decide,
   claim_C2_containment_fallback cTrue (Polygon.mk extSq []) rectIn
     (by decide) (by decide)⟩

/-- Claim C4, amended part: every polygon produced by `create_tile` has an
exterior ring with more than 3 points (the filter tests only the
exterior). -/
theorem claim_C4_amended_exterior_filter (cf : Polygon → Polygon → Bool)
    (mp : List Polygon) (r : Rect) :
    ∀ p ∈ createTile cf mp r, 3 < p.exterior.length := by
  intro p hp
  unfold createTile at hp
  have h := (List.mem_filter.mp hp).2
  simpa using h

/-- Counterexample to C4 as stated: `create_tile` does not drop interior
rings with fewer than 4 points.  Clipping `poly0` (whose hole lies wholly
outside `rect0`) leaves an empty interior ring in the output, whichever
value the containment oracle would return. -/
theorem claim_C4_counterexample :
    (∃ p ∈ createTile cTrue mp0 rect0, ∃ ring ∈ p.interiors,
       ring.length < 4) ∧
    (∃ p ∈ createTile cFalse mp0 rect0, ∃ ring ∈ p.interiors,
       ring.length < 4) := by
  have h : ∀ cf : Polygon → Polygon → Bool, createTile cf mp0 rect0 =
      [⟨[⟨0, 0⟩, ⟨5, 0⟩, ⟨5, 5⟩, ⟨0, 5⟩, ⟨0, 0⟩], [[]]⟩] := by
    intro cf
    norm_num [createTile, clipPolygon, twoPassClip, clipLine, clipFull,
      clipCore, clipSeg, edges, closeRing, intersect, interpolate,
      Coord.coord, mp0, poly0, extSq, holeSq, rect0, List.filter]
    simp
  constructor <;>
    exact ⟨_, by rw [h]; exact List.mem_singleton.mpr rfl, [],
      by simp, by norm_num⟩

/-- Witness for the amended C4 at a concrete output polygon. -/
theorem claim_C4_witness :
    (Polygon.mk [⟨0, 0⟩, ⟨5, 0⟩, ⟨5, 5⟩, ⟨0, 5⟩, ⟨0, 0⟩] [[]]) ∈
      createTile cTrue mp0 rect0 ∧
    3 < (Polygon.mk [⟨0, 0⟩, ⟨5, 0⟩, ⟨5, 5⟩, ⟨0, 5⟩, ⟨0, 0⟩]
          [[]]).exterior.length :=
  ⟨by
    norm_num [createTile, clipPolygon, twoPassClip, clipLine, clipFull,
      clipCore, clipSeg, edges, closeRing, intersect, interpolate,
      Coord.coord, mp0, poly0, extSq, holeSq, rect0, List.filter, cTrue]
    simp,
   claim_C4_amended_exterior_filter cTrue mp0 rect0 _
     (by
       norm_num [createTile, clipPolygon, twoPassClip, clipLine, clipFull,
         clipCore, clipSeg, edges, closeRing, intersect, interpolate,
         Coord.coord, mp0, poly0, extSq, holeSq, rect0, List.filter, cTrue]
       simp)⟩

/-! ### shapefile.rs: ring assembly (`From<ShapeRecord> for geo::Polygon`)

At this level coordinates are geometric values (`Coord` over `ℚ`); the
byte-level decoding of `f64` fields is modelled separately below. -/

/-- A decoded shape record at the geometry level: bounding rect, the
part-offset array, and the point array (shapefile.rs `ShapeRecord`). -/
structure ShapeRecord where
  bounding_rect : Rect
  parts : List ℕ
  points : List Coord
deriving DecidableEq, Repr

/-- shapefile.rs `ShapeRecord::part`: the slice
`points[parts[i] .. parts.get(i+1).unwrap_or(points.len())]`.
(Rust panics on an out-of-range index or inverted slice; the total Lean
version clamps, and callers stay within the panic-free domain.) -/
def ShapeRecord.part (rec : ShapeRecord) (i : ℕ) : List Coord :=
  (rec.points.drop (rec.parts.getD i 0)).take
    (rec.parts.getD (i + 1) rec.points.length - rec.parts.getD i 0)

/-- shapefile.rs `ShapeRecord::linestring`. -/
def ShapeRecord.linestring (rec : ShapeRecord) (i : ℕ) : List Coord :=
  rec.part i

/-- shapefile.rs `ShapeRecord::multi_linestring`: one ring per part. -/
def ShapeRecord.multiLinestring (rec : ShapeRecord) : List (List Coord) :=
  (List.range rec.parts.length).map rec.part

/-- `l.bounding_rect().map(|x| x.area()).unwrap_or(0.0)` of geo: the
axis-aligned bounding-box area of a ring, `0` for the empty ring. -/
def bboxArea : List Coord → ℚ
  | [] => 0
  | c :: cs =>
      (cs.foldl (fun m p => max m p.x) c.x -
       cs.foldl (fun m p => min m p.x) c.x) *
      (cs.foldl (fun m p => max m p.y) c.y -
       cs.foldl (fun m p => min m p.y) c.y)

/-- The ordering used by the `sort_by` call of shapefile.rs: the Rust
comparator returns `Greater` iff `area1 > area2` and `Less` otherwise, so
an element is `≼` another iff the comparator does not say `Greater`,
i.e. iff `bboxArea l1 ≤ bboxArea l2`. -/
def areaLe (l1 l2 : List Coord) : Bool :=
  bboxArea l1 ≤ bboxArea l2

/-- shapefile.rs `From<ShapeRecord> for geo::Polygon<f64>`: zero parts
give the empty polygon, one part is the exterior, otherwise the rings are
sorted by bounding-box area (`sort_by` with the `areaLe` order) and the
popped last (largest) ring becomes the exterior, the rest the holes. -/
def fromShapeRecord (rec : ShapeRecord) : Polygon :=
  if rec.parts.length = 0 then ⟨[], []⟩
  else if rec.parts.length = 1 then ⟨rec.linestring 0, []⟩
  else
    ⟨(rec.multiLinestring.mergeSort areaLe).getLastD [],
     (rec.multiLinestring.mergeSort areaLe).dropLast⟩

/-- Claim C10: a record with an empty part array converts totally to the
polygon with empty exterior and no holes. -/
theorem claim_C10_empty_parts_total (rec : ShapeRecord)
    (h : rec.parts = []) : fromShapeRecord rec = ⟨[], []⟩ := by
  unfold fromShapeRecord
  rw [h]
  simp

/-- Witness for C10 at a concrete record with points but no parts. -/
theorem claim_C10_witness :
    (ShapeRecord.mk ⟨⟨0, 0⟩, ⟨1, 1⟩⟩ [] [⟨1, 2⟩]).parts = [] ∧
    fromShapeRecord (ShapeRecord.mk ⟨⟨0, 0⟩, ⟨1, 1⟩⟩ [] [⟨1, 2⟩]) =
      ⟨[], []⟩ :=
  ⟨rfl, claim_C10_empty_parts_total _ rfl⟩

/-- Claim C5: for a record with at least two parts whose ring `r` has
strictly the largest bounding-box area, the conversion makes `r` the
exterior, and the holes together with `r` are a permutation of the
record's rings (i.e. all remaining rings become holes).  Since this
characterisation depends only on the areas, the selected exterior is
independent of the order of the parts in the source buffer. -/
theorem claim_C5_largest_bbox_exterior (rec : ShapeRecord)
    (hn : 2 ≤ rec.parts.length) (r : List Coord)
    (hr : r ∈ rec.multiLinestring)
    (hmax : ∀ s ∈ rec.multiLinestring, s ≠ r → bboxArea s < bboxArea r) :
    (fromShapeRecord rec).exterior = r ∧
    ((fromShapeRecord rec).interiors ++ [r]).Perm rec.multiLinestring := by
  have h0 : ¬ rec.parts.length = 0 := by omega
  have h1 : ¬ rec.parts.length = 1 := by omega
  unfold fromShapeRecord
  rw [if_neg h0, if_neg h1]
  have htrans : ∀ a b c : List Coord,
      areaLe a b = true → areaLe b c = true → areaLe a c = true := by
    intro a b c hab hbc
    simp only [areaLe, decide_eq_true_eq] at hab hbc ⊢
    exact le_trans hab hbc
  have htot : ∀ a b : List Coord, (areaLe a b || areaLe b a) = true := by
    intro a b
    simp only [areaLe, Bool.or_eq_true, decide_eq_true_eq]
    exact le_total _ _
  have hperm : (rec.multiLinestring.mergeSort areaLe).Perm
      rec.multiLinestring := List.mergeSort_perm rec.multiLinestring areaLe
  have hpair : List.Pairwise (fun a b => areaLe a b = true)
      (rec.multiLinestring.mergeSort areaLe) :=
    List.sorted_mergeSort htrans htot rec.multiLinestring
  have hSne : rec.multiLinestring.mergeSort areaLe ≠ [] := by
    intro h
    have hlen : rec.multiLinestring.length = rec.parts.length := by
      simp [ShapeRecord.multiLinestring]
    have h2 := hperm.length_eq
    rw [h] at h2
    simp only [List.length_nil] at h2
    omega
  have hsplit : (rec.multiLinestring.mergeSort areaLe).dropLast ++
      [(rec.multiLinestring.mergeSort areaLe).getLast hSne] =
      rec.multiLinestring.mergeSort areaLe :=
    List.dropLast_append_getLast hSne
  have hglast : (rec.multiLinestring.mergeSort areaLe).getLastD [] =
      (rec.multiLinestring.mergeSort areaLe).getLast hSne := by
    rw [List.getLastD_eq_getLast?, List.getLast?_eq_getLast _ hSne]
    rfl
  have hgmem : (rec.multiLinestring.mergeSort areaLe).getLast hSne ∈
      rec.multiLinestring := hperm.subset (List.getLast_mem hSne)
  have hgr : (rec.multiLinestring.mergeSort areaLe).getLast hSne = r := by
    by_contra hne
    have hlt := hmax _ hgmem hne
    have hrS : r ∈ rec.multiLinestring.mergeSort areaLe :=
      hperm.mem_iff.mpr hr
    rw [← hsplit] at hrS
    rcases List.mem_append.mp hrS with hrdrop | hrlast
    · rw [← hsplit] at hpair
      have hrel := (List.pairwise_append.mp hpair).2.2 r hrdrop _
        (List.mem_singleton.mpr rfl)
      simp only [areaLe, decide_eq_true_eq] at hrel
      linarith
    · simp only [List.mem_singleton] at hrlast
      exact hne hrlast.symm
  constructor
  · show (rec.multiLinestring.mergeSort areaLe).getLastD [] = r
    rw [hglast]
    exact hgr
  · show ((rec.multiLinestring.mergeSort areaLe).dropLast ++ [r]).Perm
      rec.multiLinestring
    rw [← hgr, hsplit]
    exact hperm

/-- A closed unit square, bounding-box area 1. -/
def ringA : List Coord := [⟨0, 0⟩, ⟨1, 0⟩, ⟨1, 1⟩, ⟨0, 1⟩, ⟨0, 0⟩]

/-- A closed 3×3 square, bounding-box area 9. -/
def ringB : List Coord := [⟨0, 0⟩, ⟨3, 0⟩, ⟨3, 3⟩, ⟨0, 3⟩, ⟨0, 0⟩]

/-- A two-part record whose smaller-area ring comes first in the buffer. -/
def rec5 : ShapeRecord := ⟨⟨⟨0, 0⟩, ⟨3, 3⟩⟩, [0, 5], ringA ++ ringB⟩

/-- Witness for C5: the later, larger-area ring `ringB` is selected as
exterior even though it is the second part. -/
theorem claim_C5_witness :
    2 ≤ rec5.parts.length ∧ ringB ∈ rec5.multiLinestring ∧
    (∀ s ∈ rec5.multiLinestring, s ≠ ringB → bboxArea s < bboxArea ringB) ∧
    ((fromShapeRecord rec5).exterior = ringB ∧
     ((fromShapeRecord rec5).interiors ++ [ringB]).Perm
       rec5.multiLinestring) := by
  have hmem : ringB ∈ rec5.multiLinestring := by decide
  have hmax : ∀ s ∈ rec5.multiLinestring, s ≠ ringB →
      bboxArea s < bboxArea ringB := by
    intro s hs hne
    have hml : rec5.multiLinestring = [ringA, ringB] := by decide
    rw [hml] at hs
    simp only [List.mem_cons, List.not_mem_nil, or_false] at hs
    rcases hs with rfl | rfl
    · norm_num [bboxArea, ringA, ringB, max_def, min_def]
    · exact absurd rfl hne
  exact ⟨by decide, hmem, hmax,
    claim_C5_largest_bbox_exterior rec5 (by decide) ringB hmem hmax⟩

/-! ### shapefile.rs: the nom byte parser (`parse_shp`)

Byte buffers are `List ℕ` (each entry a byte value).  A parser returns
`none` on failure (nom's `Error` and `Incomplete` are conflated, as
`complete!` does inside `many1!`) and otherwise the remaining input and
the parsed value.  `le_f64` fields are kept as raw 64-bit little-endian
patterns; `slice_transmute` assumes a little-endian host, as the zero-copy
Rust code does in practice. -/

/-- Little-endian value of a byte list (`le_u32` / `le_f64` patterns). -/
def leVal (bs : List ℕ) : ℕ :=
  bs.foldr (fun b acc => b + 256 * acc) 0

/-- Big-endian value of a byte list (`be_u32` / `be_i32` patterns). -/
def beVal (bs : List ℕ) : ℕ :=
  bs.foldl (fun acc b => 256 * acc + b) 0

/-- The bounding rectangle of a record, as four raw `f64` bit patterns
(xmin, ymin, xmax, ymax in buffer order). -/
structure Rect64 where
  xminBits : ℕ
  yminBits : ℕ
  xmaxBits : ℕ
  ymaxBits : ℕ
deriving DecidableEq, Repr

/-- A raw decoded shape record: bounding rect bits, part-offset array, and
point array of raw `[f64; 2]` bit patterns. -/
structure ShapeRecordRaw where
  bounding_rect : Rect64
  parts : List ℕ
  points : List (ℕ × ℕ)
deriving DecidableEq, Repr

/-- shapefile.rs `Shapefile`. -/
structure Shapefile where
  records : List ShapeRecordRaw
deriving DecidableEq, Repr

/-- A nom-style parser over byte lists. -/
def ByteParser (α : Type) := List ℕ → Option (List ℕ × α)

/-- nom `take!(n)`: `n` bytes, or failure (`Incomplete`) when fewer
remain. -/
def pTake (n : ℕ) : ByteParser (List ℕ) := fun s =>
  if n ≤ s.length then some (s.drop n, s.take n) else none

/-- nom `le_u32`. -/
def pLeU32 : ByteParser ℕ := fun s =>
  match pTake 4 s with
  | some (rest, bs) => some (rest, leVal bs)
  | none => none

/-- nom `be_u32` (also used for `be_i32`, whose raw 32-bit value is kept). -/
def pBeU32 : ByteParser ℕ := fun s =>
  match pTake 4 s with
  | some (rest, bs) => some (rest, beVal bs)
  | none => none

/-- nom `le_f64`: 8 bytes kept as the raw little-endian 64-bit pattern. -/
def pLeF64 : ByteParser ℕ := fun s =>
  match pTake 8 s with
  | some (rest, bs) => some (rest, leVal bs)
  | none => none

/-- shapefile.rs `parse_rect`: xmin, ymin, xmax, ymax as `le_f64`. -/
def pRect : ByteParser Rect64 := fun s =>
  match pLeF64 s with
  | none => none
  | some (s1, xmin) =>
    match pLeF64 s1 with
    | none => none
    | some (s2, ymin) =>
      match pLeF64 s2 with
      | none => none
      | some (s3, xmax) =>
        match pLeF64 s3 with
        | none => none
        | some (s4, ymax) => some (s4, ⟨xmin, ymin, xmax, ymax⟩)

/-- The record length in bytes: `be_i32` value `v`, reinterpreted as `i32`,
cast `as usize` (64-bit, sign-extending), times 2 (16-bit words → bytes).
For every real buffer `v < 2^31` and this is just `2 * v`. -/
def recLen (v : ℕ) : ℕ :=
  2 * (if v < 2 ^ 31 then v else 2 ^ 64 - 2 ^ 32 + v)

/-- Split a byte list into chunks of `k` bytes (`slice_transmute` shape). -/
def chunkAux (k : ℕ) : ℕ → List ℕ → List (List ℕ)
  | 0, _ => []
  | _, [] => []
  | fuel + 1, l => l.take k :: chunkAux k fuel (l.drop k)

/-- All `k`-byte chunks of a byte list. -/
def chunkList (k : ℕ) (l : List ℕ) : List (List ℕ) :=
  chunkAux k l.length l

/-- `slice_transmute::<u32>` on the parts bytes (little-endian host). -/
def partsOfBytes (bs : List ℕ) : List ℕ :=
  (chunkList 4 bs).map leVal

/-- `slice_transmute::<[f64; 2]>` on the points bytes (little-endian
host): 16-byte chunks, each an (x bits, y bits) pair. -/
def pointsOfBytes (bs : List ℕ) : List (ℕ × ℕ) :=
  (chunkList 16 bs).map fun c => (leVal (c.take 8), leVal (c.drop 8))

/-- The body of`length_value!` in shapefile.rs `parse_record`: shape type
(must verify as 5), bounding rect, part count, point count, part bytes,
point bytes.  Leftover bytes of the sub-buffer are discarded, as nom's
`length_value!` does. -/
def pRecordContent : ByteParser ShapeRecordRaw := fun s =>
  match pLeU32 s with
  | none => none
  | some (s1, st) =>
    if st = 5 then
      match pRect s1 with
      | none => none
      | some (s2, rect) =>
        match pLeU32 s2 with
        | none => none
        | some (s3, numParts) =>
          match pLeU32 s3 with
          | none => none
          | some (s4, numPoints) =>
            match pTake (numParts * 4) s4 with
            | none => none
            | some (s5, partBytes) =>
              match pTake (numPoints * 2 * 8) s5 with
              | none => none
              | some (s6, pointBytes) =>
                  some (s6, ⟨rect, partsOfBytes partBytes,
                    pointsOfBytes pointBytes⟩)
    else none

/-- shapefile.rs `parse_record`: 4 ignored index bytes, the big-endian
length in 16-bit words, then the length-bounded record content. -/
def parseRecord : ByteParser ShapeRecordRaw := fun s =>
  match pTake 4 s with
  | none => none
  | some (s1, _) =>
    match pBeU32 s1 with
    | none => none
    | some (s2, lenWords) =>
      match pTake (recLen lenWords) s2 with
      | none => none
      | some (s3, content) =>
        match pRecordContent content with
        | none => none
        | some (_, r) => some (s3, r)

/-- nom `many1!(complete!(p))`: repeat `p` until it fails, requiring at
least one success.  The fuel `s.length` suffices because `parseRecord`
consumes at least 8 bytes whenever it succeeds. -/
def pRepeat {α : Type} (p : ByteParser α) :
    ℕ → List ℕ → List α → List ℕ × List α
  | 0, s, acc => (s, acc.reverse)
  | fuel + 1, s, acc =>
      match p s with
      | none => (s, acc.reverse)
      | some (s1, a) => pRepeat p fuel s1 (a :: acc)

/-- nom `many1!(complete!(p))`. -/
def pMany1 {α : Type} (p : ByteParser α) : ByteParser (List α) := fun s =>
  match p s with
  | none => none
  | some (s1, a) =>
      match pRepeat p s1.length s1 [] with
      | (s2, rest) => some (s2, a :: rest)

/-- shapefile.rs `parse_shp`: big-endian magic 9994, 24 reserved bytes,
little-endian version 1000, little-endian shape type 5 (polygon), 64
header bytes, then one or more records. -/
def parseShp : ByteParser Shapefile := fun s =>
  match pBeU32 s with
  | none => none
  | some (s1, magic) =>
    if magic = 9994 then
      match pTake 24 s1 with
      | none => none
      | some (s2, _) =>
        match pLeU32 s2 with
        | none => none
        | some (s3, version) =>
          if version = 1000 then
            match pLeU32 s3 with
            | none => none
            | some (s4, shapeType) =>
              if shapeType = 5 then
                match pTake 64 s4 with
                | none => none
                | some (s5, _) =>
                  match pMany1 parseRecord s5 with
                  | none => none
                  | some (s6, recs) => some (s6, ⟨recs⟩)
              else none
          else none
    else none

/-- A valid 100-byte shapefile header: magic 9994 (big-endian), 24
reserved bytes, version 1000 (little-endian), shape type 5
(little-endian), 64 further header bytes. -/
def stdHeader : List ℕ :=
  [0, 0, 39, 10] ++ List.replicate 24 0 ++ [232, 3, 0, 0] ++
    [5, 0, 0, 0] ++ List.replicate 64 0

lemma pTake_append {l rest : List ℕ} {n : ℕ} (h : l.length = n) :
    pTake n (l ++ rest) = some (rest, l) := by
  have hle : n ≤ (l ++ rest).length := by
    rw [List.length_append]
    omega
  unfold pTake
  rw [if_pos hle, List.drop_left' h, List.take_left' h]

lemma pBeU32_append {l rest : List ℕ} (h : l.length = 4) :
    pBeU32 (l ++ rest) = some (rest, beVal l) := by
  unfold pBeU32
  rw [pTake_append h]

lemma pLeU32_append {l rest : List ℕ} (h : l.length = 4) :
    pLeU32 (l ++ rest) = some (rest, leVal l) := by
  unfold pLeU32
  rw [pTake_append h]

/-- Parsing a buffer with the canonical valid header reduces to running
`many1` of the record parser on the rest. -/
lemma parseShp_stdHeader (body : List ℕ) :
    parseShp (stdHeader ++ body) =
      match pMany1 parseRecord body with
      | some (rem, recs) => some (rem, ⟨recs⟩)
      | none => none := by
  have hassoc : stdHeader ++ body =
      [0, 0, 39, 10] ++ (List.replicate 24 0 ++ ([232, 3, 0, 0] ++
        ([5, 0, 0, 0] ++ (List.replicate 64 0 ++ body)))) := by
    simp [stdHeader]
  rw [hassoc]
  unfold parseShp
  rw [pBeU32_append (l := [0, 0, 39, 10]) rfl]
  dsimp only
  rw [if_pos (show beVal [0, 0, 39, 10] = 9994 from rfl),
    pTake_append (l := List.replicate 24 0) (n := 24) (by rfl)]
  dsimp only
  rw [pLeU32_append (l := [232, 3, 0, 0]) rfl]
  dsimp only
  rw [if_pos (show leVal [232, 3, 0, 0] = 1000 from rfl),
    pLeU32_append (l := [5, 0, 0, 0]) rfl]
  dsimp only
  rw [if_pos (show leVal [5, 0, 0, 0] = 5 from rfl),
    pTake_append (l := List.replicate 64 0) (n := 64) (by rfl)]
  dsimp only
  cases pMany1 parseRecord body with
  | none => rfl
  | some x =>
      cases x
      rfl

lemma pTake_eq_some {n : ℕ} {s rest bs : List ℕ}
    (h : pTake n s = some (rest, bs)) :
    rest = s.drop n ∧ bs = s.take n ∧ n ≤ s.length := by
  unfold pTake at h
  split_ifs at h with hle
  simp only [Option.some.injEq, Prod.mk.injEq] at h
  exact ⟨h.1.symm, h.2.symm, hle⟩

lemma pBeU32_eq_some {s s1 : List ℕ} {v : ℕ}
    (h : pBeU32 s = some (s1, v)) :
    s1 = s.drop 4 ∧ v = beVal (s.take 4) := by
  unfold pBeU32 at h
  cases ht : pTake 4 s with
  | none => rw [ht] at h; simp at h
  | some x =>
      obtain ⟨r, bs⟩ := x
      rw [ht] at h
      obtain ⟨e1, e2, _⟩ := pTake_eq_some ht
      simp only [Option.some.injEq, Prod.mk.injEq] at h
      exact ⟨h.1.symm.trans e1, h.2.symm.trans (by rw [e2])⟩

lemma pLeU32_eq_some {s s1 : List ℕ} {v : ℕ}
    (h : pLeU32 s = some (s1, v)) :
    s1 = s.drop 4 ∧ v = leVal (s.take 4) := by
  unfold pLeU32 at h
  cases ht : pTake 4 s with
  | none => rw [ht] at h; simp at h
  | some x =>
      obtain ⟨r, bs⟩ := x
      rw [ht] at h
      obtain ⟨e1, e2, _⟩ := pTake_eq_some ht
      simp only [Option.some.injEq, Prod.mk.injEq] at h
      exact ⟨h.1.symm.trans e1, h.2.symm.trans (by rw [e2])⟩

lemma pMany1_single {α : Type} {p : ByteParser α} {s rem : List ℕ} {a : α}
    (h1 : p s = some (rem, a)) (h2 : p rem = none) :
    pMany1 p s = some (rem, [a]) := by
  unfold pMany1
  rw [h1]
  dsimp only
  cases hl : rem.length with
  | zero => rfl
  | succ n =>
      unfold pRepeat
      rw [h2]
      rfl

lemma pMany1_records_ne_nil {α : Type} {p : ByteParser α}
    {s rem : List ℕ} {l : List α}
    (h : pMany1 p s = some (rem, l)) : l ≠ [] := by
  unfold pMany1 at h
  cases hp : p s with
  | none => rw [hp] at h; simp at h
  | some x =>
      obtain ⟨s1, a⟩ := x
      rw [hp] at h
      dsimp only at h
      simp only [Option.some.injEq, Prod.mk.injEq] at h
      rw [← h.2]
      simp

/-- A successful `parse_shp` implies the header fields were valid (magic
9994, version 1000, shape type 5) and at least one record was parsed. -/
lemma parseShp_success_header {s rem : List ℕ} {sf : Shapefile}
    (h : parseShp s = some (rem, sf)) :
    beVal (s.take 4) = 9994 ∧ leVal ((s.drop 28).take 4) = 1000 ∧
    leVal ((s.drop 32).take 4) = 5 ∧ sf.records ≠ [] := by
  unfold parseShp at h
  cases hm : pBeU32 s with
  | none => rw [hm] at h; simp at h
  | some x =>
      obtain ⟨s1, magic⟩ := x
      obtain ⟨hs1, hmagic⟩ := pBeU32_eq_some hm
      rw [hm] at h
      dsimp only at h
      split_ifs at h with h9
      cases h24 : pTake 24 s1 with
      | none => rw [h24] at h; simp at h
      | some x2 =>
          obtain ⟨s2, _⟩ := x2
          obtain ⟨hs2, _, _⟩ := pTake_eq_some h24
          rw [h24] at h
          dsimp only at h
          cases hv : pLeU32 s2 with
          | none => rw [hv] at h; simp at h
          | some x3 =>
              obtain ⟨s3, version⟩ := x3
              obtain ⟨hs3, hver⟩ := pLeU32_eq_some hv
              rw [hv] at h
              dsimp only at h
              split_ifs at h with h1000
              cases ht : pLeU32 s3 with
              | none => rw [ht] at h; simp at h
              | some x4 =>
                  obtain ⟨s4, shapeType⟩ := x4
                  obtain ⟨_, hty⟩ := pLeU32_eq_some ht
                  rw [ht] at h
                  dsimp only at h
                  split_ifs at h with h5
                  cases h64 : pTake 64 s4 with
                  | none => rw [h64] at h; simp at h
                  | some x5 =>
                      obtain ⟨s5, _⟩ := x5
                      rw [h64] at h
                      dsimp only at h
                      cases hrec : pMany1 parseRecord s5 with
                      | none => rw [hrec] at h; simp at h
                      | some x6 =>
                          obtain ⟨s6, recs⟩ := x6
                          rw [hrec] at h
                          simp only [Option.some.injEq,
                            Prod.mk.injEq] at h
                          have hd28 : s2 = s.drop 28 := by
                            rw [hs2, hs1, List.drop_drop]
                          have hd32 : s3 = s.drop 32 := by
                            rw [hs3, hd28, List.drop_drop]
                          refine ⟨by rw [← hmagic]; exact h9,
                            by rw [← hd28, ← hver]; exact h1000,
                            by rw [← hd32, ← hty]; exact h5, ?_⟩
                          rw [← h.2]
                          have := pMany1_records_ne_nil hrec
                          simpa using this

/-- Counterexample to C3 as stated: not every truncated record fails the
decode.  The record bytes of a minimal polygon record (no parts, no
points); a trailing byte `255` is a truncated record. -/
def rec3buf : List ℕ :=
  [0, 0, 0, 1] ++ [0, 0, 0, 22] ++ [5, 0, 0, 0] ++
    List.replicate 32 0 ++ [0, 0, 0, 0] ++ [0, 0, 0, 0]

/-- The record parsed from `rec3buf`. -/
def rec3 : ShapeRecordRaw := ⟨⟨0, 0, 0, 0⟩, [], []⟩

/-- A buffer with a valid header, one valid record, and a truncated
trailing record. -/
def c3buf : List ℕ := stdHeader ++ (rec3buf ++ [255])

set_option maxRecDepth 100000 in
/-- Counterexample to claim C3: the buffer `c3buf` ends in a truncated
record (`[255]` is not parseable), yet the decode of the whole buffer
succeeds, returning exactly the record that preceded the bad data and
leaving `[255]` unconsumed — a partial result the claim says cannot
exist. -/
theorem claim_C3_counterexample :
    parseRecord [255] = none ∧
    parseShp c3buf = some ([255], Shapefile.mk [rec3]) :=
  ⟨by decide, by decide⟩

/-- Claim C3 as amended: a successful decode certifies the header (magic,
version, shape type) and contains at least one record; a buffer whose
first record is malformed fails as a whole; but a malformed record after
a successful one merely stops parsing: the decode succeeds with exactly
the preceding records, the bad suffix left unconsumed. -/
theorem claim_C3_amended_partial_decode :
    (∀ s rem sf, parseShp s = some (rem, sf) →
       beVal (s.take 4) = 9994 ∧ leVal ((s.drop 28).take 4) = 1000 ∧
       leVal ((s.drop 32).take 4) = 5 ∧ sf.records ≠ []) ∧
    (∀ body, parseRecord body = none →
       parseShp (stdHeader ++ body) = none) ∧
    (∀ body rem rec, parseRecord body = some (rem, rec) →
       parseRecord rem = none →
       parseShp (stdHeader ++ body) = some (rem, ⟨[rec]⟩)) := by
  refine ⟨fun s rem sf h => parseShp_success_header h,
    fun body hb => ?_, fun body rem rec h1 h2 => ?_⟩
  · rw [parseShp_stdHeader]
    unfold pMany1
    rw [hb]
  · rw [parseShp_stdHeader, pMany1_single h1 h2]

set_option maxRecDepth 100000 in
/-- Witness for the amended C3 at the concrete buffer `c3buf`. -/
theorem claim_C3_witness :
    parseRecord (rec3buf ++ [255]) = some ([255], rec3) ∧
    parseRecord [255] = none ∧
    parseShp (stdHeader ++ (rec3buf ++ [255])) =
      some ([255], ⟨[rec3]⟩) :=
  ⟨by decide, by decide,
   claim_C3_amended_partial_decode.2.2 (rec3buf ++ [255]) [255] rec3
     (by decide) (by decide)⟩

/-- The data-model invariant claimed for decoded records: part offsets
strictly increasing and within the point count.  (That the last part
spans to the end of the point array is definitional in `part`.) -/
def recordInvariant (rec : ShapeRecordRaw) : Prop :=
  List.Pairwise (· < ·) rec.parts ∧
  ∀ p ∈ rec.parts, p ≤ rec.points.length

/-- A record whose parts array `[1, 0]` is not increasing and indexes
past its empty point array. -/
def rec9buf : List ℕ :=
  [0, 0, 0, 1] ++ [0, 0, 0, 26] ++ [5, 0, 0, 0] ++
    List.replicate 32 0 ++ [2, 0, 0, 0] ++ [0, 0, 0, 0] ++
    [1, 0, 0, 0] ++ [0, 0, 0, 0]

/-- A valid header followed by `rec9buf`. -/
def c9buf : List ℕ := stdHeader ++ rec9buf

/-- The record parsed from `rec9buf`: parts `[1, 0]`, no points. -/
def rec9 : ShapeRecordRaw := ⟨⟨0, 0, 0, 0⟩, [1, 0], []⟩

set_option maxRecDepth 100000 in
/-- Claim C9 fails on the code: the decoder performs no validation of the
part-offset array, so this buffer decodes successfully into a record
whose offsets are neither increasing nor within the point count
(`ShapeRecord::part` would then panic on out-of-bounds slicing). -/
theorem claim_C9_decoder_accepts_invalid_offsets :
    parseShp c9buf = some ([], Shapefile.mk [rec9]) ∧
    ¬ recordInvariant rec9 := by
  refine ⟨by decide, fun hinv => ?_⟩
  exact absurd (hinv.2 1 (by decide)) (by decide)
